import Mathlib

/-!
Shallow embedding of the data-aggregation core of `src/stock.py`: the
quickselect-based top-k threshold selector, the reason-tag aggregator, the
streak grouper, the trading-calendar walk and the market metrics, together
with proofs of the specified properties.
-/

namespace Stock

open scoped List

/-- Python's simultaneous swap `arr[i], arr[j] = arr[j], arr[i]` on a list:
the right-hand pair is read from the original list, then written back. -/
def lswap (l : List Int) (i j : Nat) : List Int :=
  (l.set i (l.getD j 0)).set j (l.getD i 0)

/-- The loop `for j in range(left, right)` inside `partition` of
`quick_select` (`src/stock.py` lines 16-19).  `n` counts the remaining
iterations, so the current loop index is `j` and `right = j + n`; `s = i + 1`
is the store index, one past the block of elements already known `≥ pivot`. -/
def partLoop (pivot : Int) : Nat → List Int → Nat → Nat → List Int × Nat
  | 0, l, s, _ => (l, s)
  | n + 1, l, s, j =>
    if l.getD j 0 ≥ pivot then partLoop pivot n (lswap l s j) (s + 1) (j + 1)
    else partLoop pivot n l s (j + 1)

/-- `partition(left, right)` of `quick_select` (`src/stock.py` lines 12-22):
last-element pivot, descending partition (elements `≥ pivot` move left);
returns the updated list and the final pivot index `i + 1`. -/
def partitionStep (l : List Int) (left right : Nat) : List Int × Nat :=
  let pivot := l.getD right 0
  let pr := partLoop pivot (right - left) l left left
  (lswap pr.1 pr.2 right, pr.2)

/-- The inner recursive `select(left, right, k)` of `quick_select`
(`src/stock.py` lines 24-36).  The `fuel` argument only bounds the recursion
depth so that the definition is structurally recursive; the fuel is proved
never to be exhausted, so the `none` answer ("ran out of fuel") never
actually occurs.  The result is the selected value together with
the final contents of the list, which the algorithm permutes in place. -/
def selectFuel : Nat → List Int → Nat → Nat → Nat → Option Int × List Int
  | 0, l, _, _, _ => (none, l)
  | fuel + 1, l, left, right, k =>
    if left = right then (some (l.getD left 0), l)
    else
      let pr := partitionStep l left right
      let rank := pr.2 - left + 1
      if rank = k then (some (pr.1.getD pr.2 0), pr.1)
      else if rank > k then selectFuel fuel pr.1 left (pr.2 - 1) k
      else selectFuel fuel pr.1 (pr.2 + 1) right (k - rank)

/-- `quick_select(arr, k)` (`src/stock.py` lines 8-38), returning both the
result and the final contents of the caller's list `arr` (the algorithm works
in place on `arr` itself).  The guard mirrors
`if not arr or k <= 0 or k > len(arr): return 0`. -/
def quick_selectRun (arr : List Int) (k : Int) : Option Int × List Int :=
  if arr = [] ∨ k ≤ 0 ∨ (arr.length : Int) < k then (some 0, arr)
  else selectFuel arr.length arr 0 (arr.length - 1) k.toNat

/-- The value returned by `quick_select(arr, k)`. -/
def quick_select (arr : List Int) (k : Int) : Option Int :=
  (quick_selectRun arr k).1

/-- `top_k_elements(series, k)` (`src/stock.py` lines 40-46): the guard
mirrors `if series.empty or k <= 0 or k > len(series): return 0`; otherwise
the series is copied to a fresh list (`series.tolist()`) and `quick_select`
runs on that copy. -/
def top_k_elements (series : List Int) (k : Int) : Option Int :=
  if series = [] ∨ k ≤ 0 ∨ (series.length : Int) < k then some 0
  else quick_select series k

/-- Descending sort: the reference order for "k-th largest". -/
def sortDesc (l : List Int) : List Int := l.insertionSort (· ≥ ·)

/-- The k-th largest element of a list, 1-indexed, ties counted as distinct
ranks: position `k - 1` of the descending sort. -/
def kthLargest (l : List Int) (k : Nat) : Int := (sortDesc l).getD (k - 1) 0

/-- The contiguous segment `l[a..b]`, both ends included. -/
def seg (l : List Int) (a b : Nat) : List Int := (l.drop a).take (b + 1 - a)

/-- Counting of `reasons.value_counts()` (pandas): one `(value, count)` pair
per distinct value, sorted by count descending. -/
def value_counts (l : List String) : List (String × Nat) :=
  (l.dedup.map fun t => (t, l.count t)).insertionSort fun a b => a.2 ≥ b.2

/-- The DataFrame as seen by `analyze_limit_up_reason`: the number of rows and
the reason column `涨停原因类别[date]`, which may be absent (`none`). -/
structure DF where
  nrows : Nat
  reasonCol : Option (List String)
  deriving DecidableEq

/-- `src/stock.py` lines 64-65: `if reason_col not in df.columns:
df[reason_col] = '未知'` — the state of the DataFrame after the missing-column
check, with the sentinel broadcast to every row when the column was absent. -/
def df_after (df : DF) : DF :=
  if df.reasonCol.isSome then df
  else { df with reasonCol := some (List.replicate df.nrows "未知") }

/-- `src/stock.py` lines 66-70: split each row's reason string on `+`, explode
(`df[reason_col].str.split('+').explode()`), and count occurrences of each
token (`value_counts`). -/
def concept_counts_of (df : DF) : List (String × Nat) :=
  value_counts (((df_after df).reasonCol.getD []).flatMap fun s => s.splitOn "+")

/-- `analyze_limit_up_reason(df, date)` (`src/stock.py` lines 60-73): keep the
concept counts that are `≥ top_k_elements(counts, 5)`, and return them
together with the DataFrame as it is after the call (the assignment on line 65
mutates the caller's DataFrame when the column is absent).  `top_k_elements`
is total, so reading its value with `getD 0` is exact. -/
def analyze_limit_up_reason (df : DF) : List (String × Nat) × DF :=
  ((concept_counts_of df).filter fun p =>
      (p.2 : Int)
        ≥ (top_k_elements ((concept_counts_of df).map fun p => (p.2 : Int)) 5).getD 0,
    df_after df)

/-- Threshold described by the spec: apply the selector with
`k = min(5, number of distinct categories)` to the per-category counts (the
selector returns a plain number, 0 in the degenerate cases). -/
def specThreshold (counts : List (String × Nat)) : Int :=
  (top_k_elements (counts.map fun p => (p.2 : Int))
    (min 5 (counts.length : Int))).getD 0

/-- One stock row as used by the streak grouping: the streak count `连板数`
(numeric after the fetch) and the rest of the displayed row data. -/
structure Rec where
  streak : Int
  payload : String
  deriving DecidableEq

/-- `df_processed.groupby('连板数', sort=True)` followed by
`sorted(grouped, key=..., reverse=True)` (`src/stock.py` lines 227-230):
one group per distinct streak value, keys in strictly descending order, each
group holding the records with exactly that streak value in their original
order. -/
def appGroups (records : List Rec) : List (Int × List Rec) :=
  (sortDesc (records.map Rec.streak).dedup).map fun v =>
    (v, records.filter fun r => r.streak = v)

/-- `src/stock.py` line 232: `display_text = "首板" if days == 1 else
f"{days}连板"`. -/
def display_text (days : Int) : String :=
  if days = 1 then "首板" else toString days ++ "连板"

/-- `src/stock.py` lines 233-234: `display_count = f" ({group_count})" if
group_count >= 10 else ""`. -/
def display_count (group_count : Nat) : String :=
  if group_count ≥ 10 then " (" ++ toString group_count ++ ")" else ""

/-- Loop of `get_previous_trading_day` (`src/stock.py` lines 56-58):
`while not is_workday(previous_date) or is_holiday(previous_date):
previous_date -= timedelta(days=1)`.  Dates are modelled as integers (one
unit per day) and the calendar oracle as two boolean predicates.  The `fuel`
argument bounds the number of iterations only so that the loop is structural
recursion; whenever a valid earlier trading day exists the loop stops before
the fuel runs out. -/
def prevLoop (isWorkday isHoliday : Int → Bool) : Nat → Int → Option Int
  | 0, _ => none
  | fuel + 1, d =>
    if !isWorkday d || isHoliday d then prevLoop isWorkday isHoliday fuel (d - 1)
    else some d

/-- `get_previous_trading_day(date)` (`src/stock.py` lines 55-59): start at
`date - 1` and walk backwards to the first workday that is not a holiday. -/
def get_previous_trading_day (isWorkday isHoliday : Int → Bool) (fuel : Nat)
    (date : Int) : Option Int :=
  prevLoop isWorkday isHoliday fuel (date - 1)

/-- `safe_float` (`src/stock.py` lines 49-54): a cell is `some q` when
`float()` converts it successfully (floats modelled as exact rationals) and
`none` when the conversion raises `ValueError`/`TypeError`, in which case the
function returns 0. -/
def safe_float (v : Option ℚ) : ℚ :=
  match v with
  | some x => x
  | none => 0

/-- Python's `round(x, 2)` on an exact rational: round half to even at two
decimal places. -/
def pyRound2 (x : ℚ) : ℚ :=
  (if x * 100 - ⌊x * 100⌋ < 1 / 2 then (⌊x * 100⌋ : ℚ)
   else if 1 / 2 < x * 100 - ⌊x * 100⌋ then (⌊x * 100⌋ : ℚ) + 1
   else if Even ⌊x * 100⌋ then (⌊x * 100⌋ : ℚ) else (⌊x * 100⌋ : ℚ) + 1) / 100

/-- The `连板率` entry of `calculate_metrics` (`src/stock.py` lines 99-101):
the number of rows whose streak count coerces (via `safe_float`) to a value
greater than 1, divided by the row count, times 100, rounded to two decimals;
0 when the DataFrame has no rows.  The `连续涨停天数` column is modelled by
its list of cells. -/
def lianbanlv (streakCol : List (Option ℚ)) : ℚ :=
  if streakCol.length > 0 then
    pyRound2 (((streakCol.filter fun v => safe_float v > 1).length : ℚ)
      / (streakCol.length : ℚ) * 100)
  else 0

/-- The consecutive-streak ratio as the spec words it: the count of records
with coerced `streakDays > 1` over the total record count, times 100, rounded
to two decimal places, and 0 when the total is 0. -/
def spec_streak_ratio_formula (streakCol : List (Option ℚ)) : ℚ :=
  if streakCol.length = 0 then 0
  else pyRound2 (((streakCol.countP fun v => safe_float v > 1) : ℚ)
    / (streakCol.length : ℚ) * 100)

/-! ### Basic lemmas about `getD`, `set` and `lswap` -/

@[simp] lemma length_lswap (l : List Int) (i j : Nat) :
    (lswap l i j).length = l.length := by
  simp [lswap]

lemma getD_eq_getElem {l : List Int} {i : Nat} (h : i < l.length) :
    l.getD i 0 = l[i] := by
  simp [List.getD_eq_getElem?_getD, List.getElem?_eq_getElem h]

lemma getD_set_self {l : List Int} {i : Nat} (v : Int) (h : i < l.length) :
    (l.set i v).getD i 0 = v := by
  simp [List.getD_eq_getElem?_getD, List.getElem?_set_self h]

lemma getD_set_ne {l : List Int} {i j : Nat} (v : Int) (h : i ≠ j) :
    (l.set i v).getD j 0 = l.getD j 0 := by
  simp [List.getD_eq_getElem?_getD, List.getElem?_set_ne h]

lemma getD_lswap (l : List Int) (i j t : Nat) (hi : i < l.length) (hj : j < l.length) :
    (lswap l i j).getD t 0 =
      if t = j then l.getD i 0
      else if t = i then l.getD j 0 else l.getD t 0 := by
  by_cases htj : t = j
  · subst htj
    rw [lswap, if_pos rfl, getD_set_self _ (by simpa using hj)]
  · rw [lswap, if_neg htj, getD_set_ne _ (fun h => htj h.symm)]
    by_cases hti : t = i
    · subst hti
      rw [if_pos rfl, getD_set_self _ hi]
    · rw [if_neg hti, getD_set_ne _ (fun h => hti h.symm)]

lemma count_set (l : List Int) (i : Nat) (v x : Int) (h : i < l.length) :
    (l.set i v).count x + (if l.getD i 0 = x then 1 else 0)
      = l.count x + (if v = x then 1 else 0) := by
  induction l generalizing i with
  | nil => simp at h
  | cons a t ih =>
    cases i with
    | zero =>
      by_cases h1 : v = x <;> by_cases h2 : a = x <;>
        simp [List.count_cons, h1, h2]
    | succ n =>
      have hn : n < t.length := by simpa using h
      have ht := ih n hn
      by_cases h2 : a = x <;> simp [List.count_cons, h2] at ht ⊢ <;> omega

lemma lswap_perm (l : List Int) (i j : Nat) (hi : i < l.length) (hj : j < l.length) :
    lswap l i j ~ l := by
  apply List.perm_iff_count.mpr
  intro x
  have h1 := count_set l i (l.getD j 0) x hi
  have h2 := count_set (l.set i (l.getD j 0)) j (l.getD i 0) x (by simpa using hj)
  rw [show lswap l i j = (l.set i (l.getD j 0)).set j (l.getD i 0) from rfl] at *
  by_cases hij : i = j
  · subst hij
    rw [getD_set_self _ hi] at h2
    by_cases hax : l.getD i 0 = x <;>
      simp [hax] at h1 h2 ⊢ <;> omega
  · rw [getD_set_ne _ hij] at h2
    by_cases hax : l.getD i 0 = x <;> by_cases hbx : l.getD j 0 = x <;>
      simp [hax, hbx] at h1 h2 ⊢ <;> omega

/-! ### The partition-loop invariant -/

lemma partLoop_spec (pivot : Int) (left : Nat) :
    ∀ (n : Nat) (l : List Int) (s j : Nat),
      left ≤ s → s ≤ j → j + n < l.length →
      (∀ i, left ≤ i → i < s → l.getD i 0 ≥ pivot) →
      (∀ i, s ≤ i → i < j → l.getD i 0 < pivot) →
      (partLoop pivot n l s j).1.length = l.length ∧
      (partLoop pivot n l s j).1 ~ l ∧
      s ≤ (partLoop pivot n l s j).2 ∧
      (partLoop pivot n l s j).2 ≤ j + n ∧
      (∀ i, i < s → (partLoop pivot n l s j).1.getD i 0 = l.getD i 0) ∧
      (∀ i, j + n ≤ i → (partLoop pivot n l s j).1.getD i 0 = l.getD i 0) ∧
      (∀ i, left ≤ i → i < (partLoop pivot n l s j).2 →
        (partLoop pivot n l s j).1.getD i 0 ≥ pivot) ∧
      (∀ i, (partLoop pivot n l s j).2 ≤ i → i < j + n →
        (partLoop pivot n l s j).1.getD i 0 < pivot) := by
  intro n
  induction n with
  | zero =>
    intro l s j hls hsj hlen hge hlt
    exact ⟨rfl, List.Perm.refl l, le_refl s, hsj, fun i _ => rfl, fun i _ => rfl,
      hge, hlt⟩
  | succ n ih =>
    intro l s j hls hsj hlen hge hlt
    have hjlen : j < l.length := by omega
    have hslen : s < l.length := by omega
    have hunf : partLoop pivot (n + 1) l s j
        = if l.getD j 0 ≥ pivot then partLoop pivot n (lswap l s j) (s + 1) (j + 1)
          else partLoop pivot n l s (j + 1) := rfl
    by_cases hc : l.getD j 0 ≥ pivot
    · rw [hunf, if_pos hc]
      have hget := fun t => getD_lswap l s j t hslen hjlen
      have hge' : ∀ i, left ≤ i → i < s + 1 → (lswap l s j).getD i 0 ≥ pivot := by
        intro i h1 h2
        rcases Nat.lt_or_ge i s with h3 | h3
        · rw [hget i, if_neg (by omega), if_neg (by omega)]
          exact hge i h1 h3
        · have hi : i = s := by omega
          subst hi
          rcases eq_or_ne i j with he | he
          · rw [hget i, if_pos he, he]
            exact hc
          · rw [hget i, if_neg he, if_pos rfl]
            exact hc
      have hlt' : ∀ i, s + 1 ≤ i → i < j + 1 → (lswap l s j).getD i 0 < pivot := by
        intro i h1 h2
        rcases Nat.lt_or_ge i j with h3 | h3
        · rw [hget i, if_neg (by omega), if_neg (by omega)]
          exact hlt i (by omega) h3
        · have hi : i = j := by omega
          subst hi
          rw [hget i, if_pos rfl]
          exact hlt s (le_refl s) (by omega)
      obtain ⟨r1, r2, r3, r4, r5, r6, r7, r8⟩ :=
        ih (lswap l s j) (s + 1) (j + 1) (by omega) (by omega)
          (by rw [length_lswap]; omega) hge' hlt'
      have hperm : lswap l s j ~ l := lswap_perm l s j hslen hjlen
      refine ⟨by rw [r1, length_lswap], r2.trans hperm, by omega, by omega,
        ?_, ?_, r7, fun i hA hB => r8 i hA (by omega)⟩
      · intro i h1
        rw [r5 i (by omega), hget i, if_neg (by omega), if_neg (by omega)]
      · intro i h1
        rw [r6 i (by omega), hget i, if_neg (by omega), if_neg (by omega)]
    · rw [hunf, if_neg hc]
      have hlt' : ∀ i, s ≤ i → i < j + 1 → l.getD i 0 < pivot := by
        intro i h1 h2
        rcases Nat.lt_or_ge i j with h3 | h3
        · exact hlt i h1 h3
        · have hi : i = j := by omega
          subst hi
          exact lt_of_not_ge hc
      obtain ⟨r1, r2, r3, r4, r5, r6, r7, r8⟩ :=
        ih l s (j + 1) hls (by omega) (by omega) hge hlt'
      exact ⟨r1, r2, r3, by omega, r5, fun i h1 => r6 i (by omega), r7,
        fun i hA hB => r8 i hA (by omega)⟩

/-! ### The partition specification -/

lemma partitionStep_spec (l : List Int) (left right : Nat)
    (hlr : left ≤ right) (hr : right < l.length) :
    (partitionStep l left right).1.length = l.length ∧
    (partitionStep l left right).1 ~ l ∧
    left ≤ (partitionStep l left right).2 ∧
    (partitionStep l left right).2 ≤ right ∧
    (∀ i, i < left → (partitionStep l left right).1.getD i 0 = l.getD i 0) ∧
    (∀ i, right < i → (partitionStep l left right).1.getD i 0 = l.getD i 0) ∧
    (∀ i, left ≤ i → i < (partitionStep l left right).2 →
      (partitionStep l left right).1.getD i 0
        ≥ (partitionStep l left right).1.getD (partitionStep l left right).2 0) ∧
    (∀ i, (partitionStep l left right).2 < i → i ≤ right →
      (partitionStep l left right).1.getD i 0
        < (partitionStep l left right).1.getD (partitionStep l left right).2 0) := by
  obtain ⟨p1, p2, p3, p4, p5, p6, p7, p8⟩ :=
    partLoop_spec (l.getD right 0) left (right - left) l left left (le_refl _)
      (le_refl _) (by omega)
      (fun i h1 h2 => absurd h2 (by omega))
      (fun i h1 h2 => absurd h2 (by omega))
  set pr := partLoop (l.getD right 0) (right - left) l left left with hpr
  have hstep : partitionStep l left right = (lswap pr.1 pr.2 right, pr.2) := rfl
  rw [hstep]
  have hs_le : pr.2 ≤ right := by omega
  have hsL : pr.2 < pr.1.length := by omega
  have hrL : right < pr.1.length := by omega
  have hget := fun t => getD_lswap pr.1 pr.2 right t hsL hrL
  have hpivot : pr.1.getD right 0 = l.getD right 0 := p6 right (by omega)
  have hfs : (lswap pr.1 pr.2 right).getD pr.2 0 = l.getD right 0 := by
    rcases eq_or_ne pr.2 right with he | he
    · rw [hget pr.2, if_pos he, he, hpivot]
    · rw [hget pr.2, if_neg he, if_pos rfl, hpivot]
  refine ⟨by rw [length_lswap, p1], (lswap_perm pr.1 pr.2 right hsL hrL).trans p2,
    p3, hs_le, ?_, ?_, ?_, ?_⟩
  · intro i h1
    rw [hget i, if_neg (by omega), if_neg (by omega)]
    exact p5 i (by omega)
  · intro i h1
    rw [hget i, if_neg (by omega), if_neg (by omega)]
    exact p6 i (by omega)
  · intro i h1 h2
    rw [hfs, hget i, if_neg (by omega), if_neg (by omega)]
    exact p7 i h1 h2
  · intro i h1 h2
    rw [hfs]
    rcases eq_or_ne i right with he | he
    · rw [hget i, if_pos he]
      exact p8 pr.2 (le_refl _) (by omega)
    · rw [hget i, if_neg he, if_neg (by omega)]
      exact p8 i (by omega) (by omega)

/-! ### Segments and the descending sort -/

lemma seg_single {l : List Int} {a : Nat} (ha : a < l.length) :
    seg l a a = [l.getD a 0] := by
  rw [seg, show a + 1 - a = 1 by omega, List.drop_eq_getElem_cons ha,
    getD_eq_getElem ha]
  rfl

lemma mem_take_drop {l : List Int} {a m : Nat} {x : Int}
    (hx : x ∈ (l.drop a).take m) :
    ∃ i, a ≤ i ∧ i < a + m ∧ i < l.length ∧ x = l.getD i 0 := by
  obtain ⟨t, ht, hev⟩ := List.mem_iff_getElem.mp hx
  have hb : t < m ∧ a + t < l.length := by
    have := ht
    simp only [List.length_take, List.length_drop] at this
    omega
  refine ⟨a + t, by omega, by omega, hb.2, ?_⟩
  rw [getD_eq_getElem hb.2, ← hev]
  simp [List.getElem_take, List.getElem_drop]

lemma sortDesc_sorted (l : List Int) : List.Sorted (· ≥ ·) (sortDesc l) :=
  List.sorted_insertionSort _ l

lemma sortDesc_perm (l : List Int) : sortDesc l ~ l :=
  List.perm_insertionSort _ l

lemma sortDesc_length (l : List Int) : (sortDesc l).length = l.length :=
  (sortDesc_perm l).length_eq

lemma sortDesc_eq_of_perm {l1 l2 : List Int} (h : l1 ~ l2) :
    sortDesc l1 = sortDesc l2 := by
  haveI : IsAntisymm Int (· ≥ ·) := ⟨fun a b h1 h2 => le_antisymm h2 h1⟩
  exact List.eq_of_perm_of_sorted
    ((sortDesc_perm l1).trans (h.trans (sortDesc_perm l2).symm))
    (sortDesc_sorted l1) (sortDesc_sorted l2)

lemma sortDesc_append_split (A B : List Int) (pv : Int)
    (hA : ∀ x ∈ A, pv ≤ x) (hB : ∀ x ∈ B, x < pv) :
    sortDesc (A ++ pv :: B) = sortDesc A ++ pv :: sortDesc B := by
  haveI : IsAntisymm Int (· ≥ ·) := ⟨fun a b h1 h2 => le_antisymm h2 h1⟩
  apply List.eq_of_perm_of_sorted
    ((sortDesc_perm _).trans
      ((sortDesc_perm A).symm.append ((sortDesc_perm B).symm.cons pv)))
    (sortDesc_sorted _)
  rw [List.Sorted, List.pairwise_append]
  refine ⟨sortDesc_sorted A, ?_, ?_⟩
  · rw [List.pairwise_cons]
    exact ⟨fun b hb => le_of_lt (hB b ((sortDesc_perm B).subset hb)),
      sortDesc_sorted B⟩
  · intro x hx y hy
    have hxpv : pv ≤ x := hA x ((sortDesc_perm A).subset hx)
    rcases List.mem_cons.mp hy with h | h
    · rw [h]; exact hxpv
    · exact le_trans (le_of_lt (hB y ((sortDesc_perm B).subset h))) hxpv

lemma getD_append_left {X Y : List Int} {t : Nat} (h : t < X.length) :
    (X ++ Y).getD t 0 = X.getD t 0 := by
  rw [getD_eq_getElem (by simp; omega), getD_eq_getElem h,
    List.getElem_append_left h]

lemma getD_append_right (X Y : List Int) (t : Nat) :
    (X ++ Y).getD (X.length + t) 0 = Y.getD t 0 := by
  induction X with
  | nil => simp
  | cons a X ih =>
    rw [List.cons_append,
      show (a :: X).length + t = (X.length + t) + 1 by simp; omega,
      List.getD_cons_succ]
    exact ih

lemma seg_split {l : List Int} {a p b : Nat} (hap : a ≤ p) (hpb : p ≤ b)
    (hb : b < l.length) :
    seg l a b
      = (l.drop a).take (p - a) ++ l.getD p 0 :: (l.drop (p + 1)).take (b - p) := by
  have hp : p < l.length := by omega
  rw [seg, show b + 1 - a = (p - a) + (b + 1 - p) by omega, List.take_add]
  congr 1
  rw [List.drop_drop, show a + (p - a) = p by omega, List.drop_eq_getElem_cons hp,
    show b + 1 - p = (b - p) + 1 by omega, List.take_succ_cons,
    getD_eq_getElem hp]

lemma seg_perm_of_frame {l l2 : List Int} {a b : Nat} (hab : a ≤ b)
    (hlen : l2.length = l.length) (hperm : l2 ~ l)
    (hpre : ∀ i, i < a → l2.getD i 0 = l.getD i 0)
    (hsuf : ∀ i, b < i → l2.getD i 0 = l.getD i 0) :
    seg l2 a b ~ seg l a b := by
  have htake : l2.take a = l.take a := by
    apply List.ext_getElem (by simp [hlen])
    intro t h1 h2
    have ht2 : t < l2.length := by simp at h1; omega
    have ht : t < l.length := by omega
    simp only [List.getElem_take]
    rw [← getD_eq_getElem ht2, ← getD_eq_getElem ht]
    exact hpre t (by simp at h1; omega)
  have hdrop : l2.drop (b + 1) = l.drop (b + 1) := by
    apply List.ext_getElem (by simp [hlen])
    intro t h1 h2
    have ht2 : b + 1 + t < l2.length := by simp at h1; omega
    have ht : b + 1 + t < l.length := by omega
    simp only [List.getElem_drop]
    rw [← getD_eq_getElem ht2, ← getD_eq_getElem ht]
    exact hsuf (b + 1 + t) (by omega)
  have hdec : ∀ m : List Int, m.take a ++ (seg m a b ++ m.drop (b + 1)) = m := by
    intro m
    conv_rhs => rw [← List.take_append_drop a m]
    congr 1
    conv_rhs => rw [← List.take_append_drop (b + 1 - a) (m.drop a)]
    rw [seg]
    congr 1
    rw [List.drop_drop, show a + (b + 1 - a) = b + 1 by omega]
  have h2 := hperm
  rw [← hdec l2, ← hdec l, htake, hdrop] at h2
  exact (List.perm_append_right_iff _).mp ((List.perm_append_left_iff _).mp h2)

/-! ### Correctness of the in-place selection recursion -/

lemma selectFuel_succ (fuel : Nat) (l : List Int) (left right k : Nat) :
    selectFuel (fuel + 1) l left right k =
      if left = right then (some (l.getD left 0), l)
      else
        let pr := partitionStep l left right
        let rank := pr.2 - left + 1
        if rank = k then (some (pr.1.getD pr.2 0), pr.1)
        else if rank > k then selectFuel fuel pr.1 left (pr.2 - 1) k
        else selectFuel fuel pr.1 (pr.2 + 1) right (k - rank) := rfl

lemma selectFuel_succ_ne (fuel : Nat) (l : List Int) (left right k : Nat)
    (h : left ≠ right) :
    selectFuel (fuel + 1) l left right k =
      if (partitionStep l left right).2 - left + 1 = k then
        (some ((partitionStep l left right).1.getD (partitionStep l left right).2 0),
          (partitionStep l left right).1)
      else if (partitionStep l left right).2 - left + 1 > k then
        selectFuel fuel (partitionStep l left right).1 left
          ((partitionStep l left right).2 - 1) k
      else
        selectFuel fuel (partitionStep l left right).1
          ((partitionStep l left right).2 + 1) right
          (k - ((partitionStep l left right).2 - left + 1)) := by
  rw [selectFuel_succ, if_neg h]

/-- The inner `select` recursion returns the `k`-th largest element of the
segment `l[left..right]` and permutes the list; the fuel `right + 1 - left`
always suffices. -/
lemma selectFuel_spec :
    ∀ (fuel : Nat) (l : List Int) (left right k : Nat),
      right < l.length → left ≤ right → 1 ≤ k → k ≤ right + 1 - left →
      right + 1 - left ≤ fuel →
      (selectFuel fuel l left right k).1
          = some ((sortDesc (seg l left right)).getD (k - 1) 0) ∧
      (selectFuel fuel l left right k).2 ~ l := by
  intro fuel
  induction fuel with
  | zero =>
    intro l left right k h1 h2 h3 h4 h5
    omega
  | succ fuel ih =>
    intro l left right k hr hlr hk1 hk2 hfuel
    by_cases heq : left = right
    · subst heq
      have hk : k = 1 := by omega
      subst hk
      rw [show selectFuel (fuel + 1) l left left 1 = (some (l.getD left 0), l) by
        rw [selectFuel_succ, if_pos rfl]]
      exact ⟨by rw [seg_single hr]; rfl, List.Perm.refl l⟩
    · obtain ⟨q1, q2, q3, q4, q5, q6, q7, q8⟩ :=
        partitionStep_spec l left right (by omega) hr
      rw [selectFuel_succ_ne fuel l left right k heq]
      set l2 := (partitionStep l left right).1 with hl2
      set p := (partitionStep l left right).2 with hp
      have hsegperm : seg l2 left right ~ seg l left right :=
        seg_perm_of_frame (by omega) q1 q2 q5 q6
      have hsorteq : sortDesc (seg l left right) = sortDesc (seg l2 left right) :=
        (sortDesc_eq_of_perm hsegperm).symm
      have hsplit : seg l2 left right
          = (l2.drop left).take (p - left)
            ++ l2.getD p 0 :: (l2.drop (p + 1)).take (right - p) :=
        seg_split q3 q4 (by omega)
      have hA : ∀ x ∈ (l2.drop left).take (p - left), l2.getD p 0 ≤ x := by
        intro x hx
        obtain ⟨i, hi1, hi2, _, hi4⟩ := mem_take_drop hx
        rw [hi4]
        exact q7 i hi1 (by omega)
      have hB : ∀ x ∈ (l2.drop (p + 1)).take (right - p), x < l2.getD p 0 := by
        intro x hx
        obtain ⟨i, hi1, hi2, _, hi4⟩ := mem_take_drop hx
        rw [hi4]
        exact q8 i (by omega) (by omega)
      have hsort2 : sortDesc (seg l2 left right)
          = sortDesc ((l2.drop left).take (p - left))
            ++ l2.getD p 0 :: sortDesc ((l2.drop (p + 1)).take (right - p)) := by
        rw [hsplit]
        exact sortDesc_append_split _ _ _ hA hB
      have hlenA : (sortDesc ((l2.drop left).take (p - left))).length = p - left := by
        rw [sortDesc_length]
        simp only [List.length_take, List.length_drop]
        omega
      by_cases hrank : p - left + 1 = k
      · rw [if_pos hrank]
        refine ⟨?_, q2⟩
        rw [hsorteq, hsort2,
          show k - 1 = (sortDesc ((l2.drop left).take (p - left))).length + 0 by
            rw [hlenA]; omega,
          getD_append_right]
        rfl
      · by_cases hgt : p - left + 1 > k
        · rw [if_neg hrank, if_pos hgt]
          have ihres := ih l2 left (p - 1) k (by omega) (by omega) hk1
            (by omega) (by omega)
          refine ⟨?_, ihres.2.trans q2⟩
          rw [ihres.1]
          congr 1
          rw [hsorteq, hsort2,
            show seg l2 left (p - 1) = (l2.drop left).take (p - left) by
              rw [seg, show p - 1 + 1 - left = p - left by omega],
            getD_append_left (by rw [hlenA]; omega)]
        · rw [if_neg hrank, if_neg hgt]
          have hpr : p < right := by omega
          have ihres := ih l2 (p + 1) right (k - (p - left + 1))
            (by omega) (by omega) (by omega) (by omega) (by omega)
          refine ⟨?_, ihres.2.trans q2⟩
          rw [ihres.1]
          congr 1
          rw [hsorteq, hsort2,
            show seg l2 (p + 1) right = (l2.drop (p + 1)).take (right - p) by
              rw [seg, show right + 1 - (p + 1) = right - p by omega],
            show k - 1 = (sortDesc ((l2.drop left).take (p - left))).length
                + (k - (p - left + 1)) by rw [hlenA]; omega,
            getD_append_right,
            show k - (p - left + 1) = (k - (p - left + 1) - 1) + 1 by omega,
            List.getD_cons_succ]
          congr 1

/-! ### Top-level properties of `quick_select` and `top_k_elements` -/

lemma quick_select_correct (l : List Int) (k : Int)
    (hne : l ≠ []) (h1 : 1 ≤ k) (h2 : k ≤ (l.length : Int)) :
    quick_select l k = some (kthLargest l k.toNat) ∧ (quick_selectRun l k).2 ~ l := by
  have hlen : 0 < l.length := List.length_pos.mpr hne
  have hguard : ¬(l = [] ∨ k ≤ 0 ∨ (l.length : Int) < k) := by
    push_neg
    exact ⟨hne, by omega, by omega⟩
  have hseg : seg l 0 (l.length - 1) = l := by
    rw [seg, List.drop_zero, show l.length - 1 + 1 - 0 = l.length by omega,
      List.take_length]
  obtain ⟨hv, hp⟩ := selectFuel_spec l.length l 0 (l.length - 1) k.toNat
    (by omega) (by omega) (by omega) (by omega) (by omega)
  unfold quick_select quick_selectRun
  rw [if_neg hguard, hv, hseg]
  exact ⟨rfl, hp⟩

lemma kthLargest_max {l : List Int} (hne : l ≠ []) :
    kthLargest l 1 ∈ l ∧ ∀ x ∈ l, x ≤ kthLargest l 1 := by
  have hpos : 0 < l.length := List.length_pos.mpr hne
  have hlen : 0 < (sortDesc l).length := by rw [sortDesc_length]; omega
  have hget : kthLargest l 1 = (sortDesc l)[0] := by
    rw [kthLargest, show (1 : Nat) - 1 = 0 from rfl, getD_eq_getElem hlen]
  constructor
  · rw [hget]
    exact (sortDesc_perm l).subset (List.getElem_mem _)
  · intro x hx
    obtain ⟨t, ht, hev⟩ := List.mem_iff_getElem.mp ((sortDesc_perm l).mem_iff.mpr hx)
    rw [hget, ← hev]
    rcases Nat.eq_zero_or_pos t with h0 | h0
    · subst h0
      exact le_refl _
    · exact List.pairwise_iff_getElem.mp (sortDesc_sorted l) 0 t hlen ht h0

lemma kthLargest_min {l : List Int} (hne : l ≠ []) :
    kthLargest l l.length ∈ l ∧ ∀ x ∈ l, kthLargest l l.length ≤ x := by
  have hpos : 0 < l.length := List.length_pos.mpr hne
  have hlen : l.length - 1 < (sortDesc l).length := by rw [sortDesc_length]; omega
  have hget : kthLargest l l.length = (sortDesc l)[l.length - 1] := by
    rw [kthLargest, getD_eq_getElem hlen]
  constructor
  · rw [hget]
    exact (sortDesc_perm l).subset (List.getElem_mem _)
  · intro x hx
    obtain ⟨t, ht, hev⟩ := List.mem_iff_getElem.mp ((sortDesc_perm l).mem_iff.mpr hx)
    rw [hget, ← hev]
    rcases Nat.lt_or_ge t (l.length - 1) with h0 | h0
    · exact List.pairwise_iff_getElem.mp (sortDesc_sorted l) t (l.length - 1)
        ht hlen h0
    · have ht' : t = l.length - 1 := by
        rw [sortDesc_length] at ht
        omega
      subst ht'
      exact le_refl _

/-- C1: for every non-empty list of numbers and every integer `k` with
`1 ≤ k ≤ length values`, the selector (`quick_select`, and `top_k_elements`
over a series) returns the k-th largest element of `values`, counting ties as
distinct ranks; in particular for `k = 1` it returns the maximum and for
`k = length values` the minimum. -/
theorem claim_C1_selector_kth_largest (values : List Int) (k : Int)
    (hne : values ≠ []) (hk1 : 1 ≤ k) (hk2 : k ≤ (values.length : Int)) :
    quick_select values k = some (kthLargest values k.toNat) ∧
    top_k_elements values k = some (kthLargest values k.toNat) ∧
    (k = 1 → kthLargest values 1 ∈ values ∧ ∀ x ∈ values, x ≤ kthLargest values 1) ∧
    (k = (values.length : Int) →
      kthLargest values values.length ∈ values ∧
        ∀ x ∈ values, kthLargest values values.length ≤ x) := by
  have hguard : ¬(values = [] ∨ k ≤ 0 ∨ (values.length : Int) < k) := by
    push_neg
    exact ⟨hne, by omega, by omega⟩
  have hqs := quick_select_correct values k hne hk1 hk2
  refine ⟨hqs.1, ?_, fun _ => kthLargest_max hne, fun _ => kthLargest_min hne⟩
  unfold top_k_elements
  rw [if_neg hguard]
  exact hqs.1

/-- Witness for C1 at `values = [3, 1, 2]`, `k = 2`. -/
theorem claim_C1_selector_kth_largest_witness :
    quick_select [3, 1, 2] 2 = some (kthLargest [3, 1, 2] 2) ∧
    top_k_elements [3, 1, 2] 2 = some (kthLargest [3, 1, 2] 2) ∧
    ((2 : Int) = 1 →
      kthLargest [3, 1, 2] 1 ∈ [3, 1, 2] ∧
        ∀ x ∈ [3, 1, 2], x ≤ kthLargest [3, 1, 2] 1) ∧
    ((2 : Int) = (([3, 1, 2] : List Int).length : Int) →
      kthLargest [3, 1, 2] ([3, 1, 2] : List Int).length ∈ [3, 1, 2] ∧
        ∀ x ∈ [3, 1, 2], kthLargest [3, 1, 2] ([3, 1, 2] : List Int).length ≤ x) :=
  claim_C1_selector_kth_largest [3, 1, 2] 2 (by decide) (by decide) (by decide)

/-- C4: for every sequence and every `k` violating the precondition (empty
input, `k ≤ 0`, or `k > length`), both `quick_select` and `top_k_elements`
return the sentinel 0 rather than failing. -/
theorem claim_C4_sentinel_on_bad_input (values : List Int) (k : Int)
    (h : values = [] ∨ k ≤ 0 ∨ (values.length : Int) < k) :
    quick_select values k = some 0 ∧ top_k_elements values k = some 0 := by
  constructor
  · unfold quick_select quick_selectRun
    rw [if_pos h]
  · unfold top_k_elements
    rw [if_pos h]

/-- Witness for C4 at the empty list, `k = 0`, and `k = length + 1`. -/
theorem claim_C4_sentinel_on_bad_input_witness :
    quick_select [] 3 = some 0 ∧ top_k_elements [] 3 = some 0 :=
  claim_C4_sentinel_on_bad_input [] 3 (by decide)

/-- C5 is refuted as stated: `quick_select` does not leave the caller's list
unchanged — on input `[1, 2]` with `k = 1` the list ends up as `[2, 1]`. -/
theorem claim_C5_counterexample : ¬((quick_selectRun [1, 2] 1).2 = [1, 2]) := by
  decide

/-- C5 (amended): `quick_select` operates in place on the caller's list and
permutes it — after the call the list holds the same multiset of elements,
possibly reordered; `top_k_elements` is unaffected because it hands
`quick_select` a fresh copy (`series.tolist()`). -/
theorem claim_C5_amended_permutes (arr : List Int) (k : Int) :
    (quick_selectRun arr k).2 ~ arr := by
  by_cases h : arr = [] ∨ k ≤ 0 ∨ (arr.length : Int) < k
  · unfold quick_selectRun
    rw [if_pos h]
  · push_neg at h
    exact (quick_select_correct arr k h.1 (by omega) (by omega)).2

/-- C10: `quick_select` terminates on every finite list and every integer
`k` — in the fuel embedding, the fuel `arr.length` is never exhausted, so the
recursion always reaches a base case and an answer is produced. -/
theorem claim_C10_terminates (arr : List Int) (k : Int) :
    (quick_select arr k).isSome = true := by
  by_cases h : arr = [] ∨ k ≤ 0 ∨ (arr.length : Int) < k
  · unfold quick_select quick_selectRun
    rw [if_pos h]
    rfl
  · push_neg at h
    rw [(quick_select_correct arr k h.1 (by omega) (by omega)).1]
    rfl

/-! ### The reason aggregator `analyze_limit_up_reason` -/

lemma filter_ge_threshold_eq (cc : List (String × Nat)) :
    (cc.filter fun p =>
        (p.2 : Int) ≥ (top_k_elements (cc.map fun p => (p.2 : Int)) 5).getD 0)
      = cc.filter fun p => (p.2 : Int) ≥ specThreshold cc := by
  rw [specThreshold]
  rcases Nat.lt_or_ge cc.length 5 with h5 | h5
  · -- fewer than 5 distinct categories: the code's threshold is the sentinel
    -- 0, the spec's threshold is the minimum count; both retain everything.
    have hcode : top_k_elements (cc.map fun p => (p.2 : Int)) 5 = some 0 := by
      unfold top_k_elements
      rw [if_pos]
      right; right
      rw [List.length_map]
      exact_mod_cast h5
    have hmin : min (5 : Int) (cc.length : Int) = (cc.length : Int) := by
      apply min_eq_right
      exact_mod_cast Nat.le_of_lt h5
    rw [hcode, hmin]
    rcases Nat.eq_zero_or_pos cc.length with h0 | h0
    · rw [List.length_eq_zero.mp h0]
      rfl
    · have hne : (cc.map fun p => (p.2 : Int)) ≠ [] := by
        apply List.ne_nil_of_length_pos
        rw [List.length_map]
        omega
      have hlenv : (cc.map fun p => (p.2 : Int)).length = cc.length :=
        List.length_map _ _
      have hspec : top_k_elements (cc.map fun p => (p.2 : Int)) (cc.length : Int)
          = some (kthLargest (cc.map fun p => (p.2 : Int)) cc.length) := by
        unfold top_k_elements
        rw [if_neg (by push_neg; exact ⟨hne, by omega, by rw [hlenv]⟩)]
        have := (quick_select_correct (cc.map fun p => (p.2 : Int))
          (cc.length : Int) hne (by omega) (by rw [hlenv])).1
        rwa [Int.toNat_natCast] at this
      rw [hspec]
      rw [List.filter_eq_self.mpr, List.filter_eq_self.mpr]
      · intro a ha
        have hmem : (a.2 : Int) ∈ cc.map fun p => (p.2 : Int) :=
          List.mem_map_of_mem _ ha
        have := (kthLargest_min hne).2 _ hmem
        rw [hlenv] at this
        simpa using this
      · intro a ha
        simp
  · -- at least 5 distinct categories: both sides use k = 5.
    rw [min_eq_left (by exact_mod_cast h5)]

/-- C2: for every RecordSet, the aggregator returns exactly the CategoryCount
entries whose count is `≥ t`, where `t` is the selector applied with
`k = min(5, number of distinct categories)` to the per-category counts. -/
theorem claim_C2_threshold_filter (df : DF) :
    (analyze_limit_up_reason df).1
      = (concept_counts_of df).filter fun p =>
          (p.2 : Int) ≥ specThreshold (concept_counts_of df) :=
  filter_ge_threshold_eq (concept_counts_of df)

/-- C6 is refuted as stated: when the reason column is absent, the aggregator
adds it to the caller's DataFrame — a one-row DataFrame without the column is
mutated by the call. -/
theorem claim_C6_counterexample :
    ¬((analyze_limit_up_reason ⟨1, none⟩).2 = (⟨1, none⟩ : DF)) := by
  decide

/-- C6 (amended): the aggregator does not mutate the RecordSet when the
reason column is present; when the column is absent it mutates the caller's
DataFrame by adding the column, filled with the sentinel `未知` for every
row. -/
theorem claim_C6_amended_mutation (df : DF) :
    (df.reasonCol.isSome → (analyze_limit_up_reason df).2 = df) ∧
    (df.reasonCol = none →
      (analyze_limit_up_reason df).2
        = { nrows := df.nrows,
            reasonCol := some (List.replicate df.nrows "未知") }) := by
  constructor <;> intro h
  · simp [analyze_limit_up_reason, df_after, h]
  · simp [analyze_limit_up_reason, df_after, h]

/-- Witness for the amended C6: a DataFrame that has the reason column is
returned unchanged. -/
theorem claim_C6_amended_mutation_witness :
    (analyze_limit_up_reason ⟨1, some ["AI+Chip"]⟩).2 = ⟨1, some ["AI+Chip"]⟩ :=
  (claim_C6_amended_mutation ⟨1, some ["AI+Chip"]⟩).1 (by decide)

/-! ### The streak grouper in `app()` -/

lemma length_filter_streak (records : List Rec) (v : Int) :
    (records.filter fun r => r.streak = v).length
      = (records.map Rec.streak).count v := by
  induction records with
  | nil => rfl
  | cons a t ih =>
    by_cases h : a.streak = v <;>
      simp [List.filter_cons, List.count_cons, h, ih]

lemma appGroups_keys_gt (records : List Rec) :
    List.Pairwise (· > ·) (sortDesc (records.map Rec.streak).dedup) := by
  have hperm : sortDesc (records.map Rec.streak).dedup
      ~ (records.map Rec.streak).dedup := sortDesc_perm _
  have hnodup : (sortDesc (records.map Rec.streak).dedup).Nodup :=
    hperm.nodup_iff.mpr (List.nodup_dedup _)
  have hsorted : List.Pairwise (· ≥ ·) (sortDesc (records.map Rec.streak).dedup) :=
    sortDesc_sorted _
  exact (hsorted.and hnodup).imp fun h => lt_of_le_of_ne h.1 (Ne.symm h.2)

/-- C3: for every RecordSet, the groups form an exhaustive and disjoint
partition keyed by exact `streakDays` equality (so the group sizes sum to the
number of records), and the groups are sorted by `streakDays` strictly
descending, no two groups sharing a key. -/
theorem claim_C3_partition (records : List Rec) :
    (((appGroups records).map fun g => g.2.length).sum = records.length) ∧
    (∀ g ∈ appGroups records, ∀ r ∈ g.2, r.streak = g.1) ∧
    (∀ r ∈ records, ∃ g ∈ appGroups records, r ∈ g.2) ∧
    List.Pairwise (fun g1 g2 : Int × List Rec => g1.1 > g2.1) (appGroups records) ∧
    List.Pairwise (fun g1 g2 : Int × List Rec => ∀ r ∈ g1.2, r ∉ g2.2)
      (appGroups records) := by
  have hgt := appGroups_keys_gt records
  refine ⟨?_, ?_, ?_, ?_, ?_⟩
  · rw [appGroups, List.map_map]
    have h1 : ((fun g : Int × List Rec => g.2.length) ∘ fun v =>
        (v, records.filter fun r => r.streak = v))
        = fun v => (records.map Rec.streak).count v := by
      funext v
      exact length_filter_streak records v
    rw [h1]
    have h2 := (sortDesc_perm (records.map Rec.streak).dedup).map
      fun v => (records.map Rec.streak).count v
    rw [h2.sum_eq, List.sum_map_count_dedup_eq_length, List.length_map]
  · intro g hg r hr
    obtain ⟨v, _, rfl⟩ := List.mem_map.mp hg
    have := (List.mem_filter.mp hr).2
    simpa using this
  · intro r hr
    refine ⟨(r.streak, records.filter fun x => x.streak = r.streak), ?_, ?_⟩
    · apply List.mem_map_of_mem
      exact (sortDesc_perm _).mem_iff.mpr
        (List.mem_dedup.mpr (List.mem_map_of_mem Rec.streak hr))
    · exact List.mem_filter.mpr ⟨hr, by simp⟩
  · rw [appGroups, List.pairwise_map]
    exact hgt
  · rw [appGroups, List.pairwise_map]
    refine hgt.imp ?_
    intro v w hvw r hrv hrw
    have h1 : r.streak = v := by simpa using (List.mem_filter.mp hrv).2
    have h2 : r.streak = w := by simpa using (List.mem_filter.mp hrw).2
    omega

/-- Witness-style instance of C3 on the spec's Scenario A streak values. -/
theorem claim_C3_partition_witness :
    (((appGroups [⟨1, "a"⟩, ⟨1, "b"⟩, ⟨2, "c"⟩, ⟨3, "d"⟩, ⟨3, "e"⟩, ⟨3, "f"⟩]).map
        fun g => g.2.length).sum
      = ([⟨1, "a"⟩, ⟨1, "b"⟩, ⟨2, "c"⟩, ⟨3, "d"⟩, ⟨3, "e"⟩,
          (⟨3, "f"⟩ : Rec)] : List Rec).length) :=
  (claim_C3_partition [⟨1, "a"⟩, ⟨1, "b"⟩, ⟨2, "c"⟩, ⟨3, "d"⟩, ⟨3, "e"⟩, ⟨3, "f"⟩]).1

lemma display_text_eq_iff (days : Int) : display_text days = "首板" ↔ days = 1 := by
  constructor
  · intro h
    by_contra hne
    rw [display_text, if_neg hne] at h
    have hlen := congrArg String.length h
    rw [String.length_append] at hlen
    have h2 : ("连板" : String).length = 2 := rfl
    have h3 : ("首板" : String).length = 2 := rfl
    have h0 : (toString days).length = 0 := by omega
    have hempty : toString days = "" := by
      apply String.ext
      have := h0
      rw [String.length] at this
      exact List.length_eq_zero.mp this
    rw [hempty] at h
    exact absurd h (by decide)
  · intro h
    rw [display_text, if_pos h]

lemma display_count_ne_iff (n : Nat) : display_count n ≠ "" ↔ 10 ≤ n := by
  constructor
  · intro h
    by_contra hlt
    rw [display_count, if_neg (by omega)] at h
    exact h rfl
  · intro h hcontra
    rw [display_count, if_pos h] at hcontra
    have hlen := congrArg String.length hcontra
    rw [String.length_append, String.length_append] at hlen
    have h2 : (" (" : String).length = 2 := rfl
    have h3 : (")" : String).length = 1 := rfl
    have h0 : ("" : String).length = 0 := rfl
    omega

/-- C7: for every group produced by the streak grouper, the display label is
the first-board label `首板` exactly when the group's streak value is 1
(otherwise the composite `N连板` label), and the parenthetical size
annotation is nonempty if and only if the group has at least 10 records. -/
theorem claim_C7_streak_labels (records : List Rec) :
    ∀ g ∈ appGroups records,
      (display_text g.1 = "首板" ↔ g.1 = 1) ∧
      (display_text g.1 = toString g.1 ++ "连板" ↔ ¬g.1 = 1) ∧
      (display_count g.2.length ≠ "" ↔ 10 ≤ g.2.length) := by
  intro g _
  refine ⟨display_text_eq_iff g.1, ?_, display_count_ne_iff g.2.length⟩
  constructor
  · intro h hone
    rw [display_text, if_pos hone, hone] at h
    exact absurd h (by decide)
  · intro h
    rw [display_text, if_neg h]

/-- Witness for C7 at a singleton first-board group. -/
theorem claim_C7_streak_labels_witness :
    (display_text ((1 : Int), ([⟨1, "a"⟩] : List Rec)).1 = "首板"
        ↔ ((1 : Int), ([⟨1, "a"⟩] : List Rec)).1 = 1) ∧
    (display_text ((1 : Int), ([⟨1, "a"⟩] : List Rec)).1
        = toString ((1 : Int), ([⟨1, "a"⟩] : List Rec)).1 ++ "连板"
        ↔ ¬((1 : Int), ([⟨1, "a"⟩] : List Rec)).1 = 1) ∧
    (display_count ((1 : Int), ([⟨1, "a"⟩] : List Rec)).2.length ≠ ""
        ↔ 10 ≤ ((1 : Int), ([⟨1, "a"⟩] : List Rec)).2.length) :=
  claim_C7_streak_labels [⟨1, "a"⟩] ((1 : Int), ([⟨1, "a"⟩] : List Rec))
    (by decide)

/-! ### The trading-calendar walk -/

lemma prevLoop_succ (isW isH : Int → Bool) (f : Nat) (d : Int) :
    prevLoop isW isH (f + 1) d
      = if !isW d || isH d then prevLoop isW isH f (d - 1) else some d := rfl

lemma prevLoop_reaches (isW isH : Int → Bool) (g : Int)
    (hg : isW g = true ∧ isH g = false) :
    ∀ (n fuel : Nat) (start : Int), start = g + n → n < fuel →
      (∀ d, g < d → d ≤ start → ¬(isW d = true ∧ isH d = false)) →
      prevLoop isW isH fuel start = some g := by
  intro n
  induction n with
  | zero =>
    intro fuel start hstart hfuel hbad
    have hsg : start = g := by omega
    subst hsg
    cases fuel with
    | zero => omega
    | succ f =>
      rw [prevLoop_succ]
      have hcond : (!isW start || isH start) = false := by
        rw [hg.1, hg.2]
        rfl
      rw [hcond]
      rfl
  | succ n ih =>
    intro fuel start hstart hfuel hbad
    cases fuel with
    | zero => omega
    | succ f =>
      rw [prevLoop_succ]
      have hbadstart : ¬(isW start = true ∧ isH start = false) :=
        hbad start (by omega) (le_refl _)
      have hcond : (!isW start || isH start) = true := by
        cases hW : isW start <;> cases hH : isH start <;> simp_all
      rw [hcond]
      simp only [if_true]
      exact ih f (start - 1) (by omega) (by omega)
        (fun d h1 h2 => hbad d h1 (by omega))

/-- C8: whenever a valid trading day `g` exists strictly before `date` — a
workday that is not a holiday, with no valid day between `g` and `date` —
the backward walk from `date - 1` returns exactly `g` (given enough fuel to
cover the gap, which the walk never exceeds). -/
theorem claim_C8_previous_trading_day (isWorkday isHoliday : Int → Bool)
    (date g : Int) (fuel : Nat)
    (hvalid : isWorkday g = true ∧ isHoliday g = false)
    (hlt : g < date)
    (hgreatest : ∀ d : Int, g < d → d < date →
      ¬(isWorkday d = true ∧ isHoliday d = false))
    (hfuel : (date - 1 - g).toNat < fuel) :
    get_previous_trading_day isWorkday isHoliday fuel date = some g := by
  rw [get_previous_trading_day]
  exact prevLoop_reaches isWorkday isHoliday g hvalid (date - 1 - g).toNat fuel
    (date - 1) (by omega) hfuel (fun d h1 h2 => hgreatest d h1 (by omega))

/-- Witness for C8 on the spec's Scenario C: Monday (day 7) is a holiday,
Sunday (6) and Saturday (5) are not workdays, Friday (4) is valid, so the
walk from Monday lands on Friday. -/
theorem claim_C8_previous_trading_day_witness :
    get_previous_trading_day (fun d => decide (d % 7 ≠ 5 ∧ d % 7 ≠ 6))
      (fun d => decide (d = 7)) 4 7 = some 4 :=
  claim_C8_previous_trading_day (fun d => decide (d % 7 ≠ 5 ∧ d % 7 ≠ 6))
    (fun d => decide (d = 7)) 7 4 4 (by decide) (by decide)
    (by
      intro d h1 h2
      interval_cases d <;> decide)
    (by decide)

/-! ### `safe_float` and the streak-ratio metric -/

/-- C9: the consecutive-streak ratio computed by `calculate_metrics` equals
the spec's formula — count of records with coerced streak > 1 over total,
times 100, rounded to two decimals — it is 0 when the record count is 0, and
a coercion failure contributes the value 0 (hence is never counted as a
streak). -/
theorem claim_C9_streak_ratio_formula (streakCol : List (Option ℚ)) :
    lianbanlv streakCol = spec_streak_ratio_formula streakCol ∧
    (streakCol.length = 0 → lianbanlv streakCol = 0) ∧
    safe_float none = 0 := by
  refine ⟨?_, ?_, rfl⟩
  · rw [lianbanlv, spec_streak_ratio_formula, List.countP_eq_length_filter]
    rcases Nat.eq_zero_or_pos streakCol.length with h0 | h0
    · rw [if_neg (by omega), if_pos h0]
    · rw [if_pos h0, if_neg (by omega)]
  · intro h0
    rw [lianbanlv, if_neg (by omega)]

/-- Witness for C9 at the empty record set (the spec's Scenario D: total 0
gives ratio 0). -/
theorem claim_C9_streak_ratio_formula_witness :
    lianbanlv [] = spec_streak_ratio_formula [] ∧ lianbanlv [] = 0 :=
  ⟨(claim_C9_streak_ratio_formula []).1, (claim_C9_streak_ratio_formula []).2.1 rfl⟩

end Stock
